import Mathlib

/-!
Verification of the mcp-rag retrieval pipeline.

This file gives a shallow embedding, in Lean, of the core logic of the
repository (document chunking, embedding batching/retry, cosine similarity,
and the vector-store adapter / orchestrator operations) and proves or refutes
the specification claims about it.

Conventions of the embedding:
* JS strings are modelled as `List Char`; JS `String.prototype.trim` is
  modelled with `Char.isWhitespace`.
* JS numbers are modelled as `ℚ` except for `calculateCosineSimilarity`,
  where the square root forces `ℝ`.
* External collaborators (the HuggingFace embedding HTTP endpoint and the
  Pinecone index) are modelled as oracles passed in as function arguments;
  a fallible external call is an `Except String` value.
* Fresh UUIDs and timestamps are produced by external collaborators
  (`uuidv4()`, `Date`) and are not modelled; no claim depends on them.
-/

namespace McpRag

/-! ## Character/string utilities (JS `trim`, `slice`, `split`) -/

/-- Whitespace test used by JS `trim` (modelled with `Char.isWhitespace`). -/
def isWs (c : Char) : Bool := c.isWhitespace

/-- Remove leading whitespace (the left half of JS `trim`). -/
def trimL (l : List Char) : List Char := l.dropWhile isWs

/-- Remove trailing whitespace (the right half of JS `trim`). -/
def trimR (l : List Char) : List Char := (l.reverse.dropWhile isWs).reverse

/-- JS `String.prototype.trim`: remove leading and trailing whitespace. -/
def trim (l : List Char) : List Char := trimL (trimR l)

/-- Sentence-terminator characters of `splitIntoSentences` (`/[.!?]+/`). -/
def isTerminator (c : Char) : Bool := c = '.' || c = '!' || c = '?'

/-- Split a character list at every terminator character.  The JS regex
`/[.!?]+/` splits on maximal terminator runs; splitting on every single
terminator instead produces extra empty pieces, which the subsequent
`filter` of `splitIntoSentences` discards, so the two agree after it. -/
def splitOnTerm : List Char → List (List Char)
  | [] => [[]]
  | c :: cs =>
    if isTerminator c then [] :: splitOnTerm cs
    else
      match splitOnTerm cs with
      | [] => [[c]]
      | s :: ss => (c :: s) :: ss

/-! ## FileProcessor (src/utils/fileProcessor.ts) -/

/-- `FileProcessor.splitIntoSentences`: split on `[.!?]+`, trim each unit,
drop empty units. -/
def splitIntoSentences (text : List Char) : List (List Char) :=
  ((splitOnTerm text).map trim).filter (fun s => 0 < s.length)

/-- `FileProcessor.getOverlapText`.  Note the JS edge: for
`overlapSize = 0` and a non-empty text, `text.slice(-0)` is `text.slice(0)`,
i.e. the whole text, so the function returns `text` in every `0` case. -/
def getOverlapText (text : List Char) (overlapSize : Nat) : List Char :=
  if text.length ≤ overlapSize then text
  else if overlapSize = 0 then text
  else text.drop (text.length - overlapSize)

/-- One produced chunk.  Of `createChunkObject`'s output we keep the fields
the claims are about: `content` and the `chunkIndex`/`totalChunks` metadata.
The other fields (`id` from `uuidv4()`, `timestamp` from `Date`, and
`source`/`filename`/`fileType`/`size` copied verbatim from `fileInfo`) are
external or constant per call. -/
structure Chunk where
  content : List Char
  chunkIndex : Nat
  totalChunks : Nat
  deriving DecidableEq, Repr

/-- The body of the `for` loop of `FileProcessor.createChunks`, acting on the
state `(chunks, currentChunk, chunkIndex)`.  The guard is the JS condition
`sentence && currentChunk.length + sentence.length > chunkSize &&
currentChunk.length > 0`; the emitted chunk is
`createChunkObject(currentChunk.trim(), fileInfo, chunkIndex, chunks.length + 1)`. -/
def chunkStep (chunkSize chunkOverlap : Nat)
    (st : List Chunk × List Char × Nat) (sentence : List Char) :
    List Chunk × List Char × Nat :=
  let chunks := st.1
  let currentChunk := st.2.1
  let chunkIndex := st.2.2
  if sentence ≠ [] ∧ chunkSize < currentChunk.length + sentence.length ∧
      0 < currentChunk.length then
    (chunks ++ [⟨trim currentChunk, chunkIndex, chunks.length + 1⟩],
     getOverlapText currentChunk chunkOverlap ++ sentence,
     chunkIndex + 1)
  else
    (chunks, currentChunk ++ (if currentChunk ≠ [] then ' ' :: sentence else sentence),
     chunkIndex)

/-- `FileProcessor.createChunks` (with `chunkSize`/`chunkOverlap` already
resolved from `options`/`CONFIG`): fold the loop body over the sentences and
flush the remaining buffer if its trim is non-empty. -/
def createChunks (chunkSize chunkOverlap : Nat) (content : List Char) : List Chunk :=
  let st := (splitIntoSentences content).foldl (chunkStep chunkSize chunkOverlap) ([], [], 0)
  if 0 < (trim st.2.1).length then
    st.1 ++ [⟨trim st.2.1, st.2.2, st.1.length + 1⟩]
  else st.1

/-! ## EmbeddingService (src/services/embeddingService.ts) -/

/-- `EmbeddingService.generateEmbeddings`.  The axios POST is the oracle
`provider`; a thrown/failed HTTP call, a non-200 status or a non-array body
are all `Except.error` outcomes of the oracle (the catch block only rewrites
the message of such upstream errors before re-throwing).  On success the
response is filtered down to the vectors whose length equals the configured
embedding dimension; invalid entries are dropped silently. -/
def generateEmbeddings (dim : Nat) (provider : List σ → Except String (List (List α)))
    (texts : List σ) : Except String (List (List α)) :=
  if texts.length = 0 then .ok []
  else
    match provider texts with
    | .ok resp => .ok (resp.filter (fun e => e.length = dim))
    | .error e => .error e

/-- `EmbeddingService.generateSingleEmbedding`: embed `[text]` and return
`embeddings[0] || []`. -/
def generateSingleEmbedding (dim : Nat) (provider : List σ → Except String (List (List α)))
    (text : σ) : Except String (List α) :=
  match generateEmbeddings dim provider [text] with
  | .ok embeddings => .ok (embeddings.headD [])
  | .error e => .error e

/-- `EmbeddingService.testConnection`: embed the probe (`'test'` in the
source) and compare the length with the configured dimension; any raised
error is converted to `false`. -/
def testConnection (dim : Nat) (provider : List σ → Except String (List (List α)))
    (probe : σ) : Bool :=
  match generateSingleEmbedding dim provider probe with
  | .ok v => v.length == dim
  | .error _ => false

/-- The batch partition of `generateEmbeddingsBatch`'s `for` loop
(`texts.slice(i, i + batchSize)` for `i = 0, batchSize, 2*batchSize, ...`),
with the list length as structural fuel.  For `n = 0` and a non-empty list
the source loops forever (`i` never advances); the fuel caps that divergence,
and every claim below assumes `0 < n`. -/
def toBatchesGo (n : Nat) : Nat → List σ → List (List σ)
  | 0, _ => []
  | _, [] => []
  | fuel + 1, l => l.take n :: toBatchesGo n fuel (l.drop n)

/-- The list of batches processed by `generateEmbeddingsBatch`. -/
def toBatches (n : Nat) (l : List σ) : List (List σ) := toBatchesGo n l.length l

/-- The `while (retries < maxRetries && !success)` retry loop for one batch.
`g a` is the outcome of attempt number `a` (the value of `retries` when the
call is made); the fuel is `maxRetries - retries`, so fuel `0` is the case in
which the loop guard is already false and the loop body adds nothing
(reachable only with `maxRetries = 0`).  After a failed attempt the error is
re-thrown when the incremented `retries` reaches `maxRetries`, otherwise the
loop sleeps (timing not modelled) and tries again. -/
def retryGo (g : Nat → Except String (List β)) (maxRetries : Nat) :
    Nat → Nat → Except String (List β)
  | 0, _ => .ok []
  | fuel + 1, retries =>
    match g retries with
    | .ok v => .ok v
    | .error e =>
      if maxRetries ≤ retries + 1 then .error e
      else retryGo g maxRetries fuel (retries + 1)

/-- Process the batches in order, concatenating the successful results into
`allEmbeddings`; a batch whose retries are exhausted throws, discarding the
partial accumulation. -/
def runBatches (g : List σ → Nat → Except String (List β)) (maxRetries : Nat) :
    List (List σ) → Except String (List β)
  | [] => .ok []
  | b :: bs =>
    match retryGo (g b) maxRetries maxRetries 0 with
    | .error e => .error e
    | .ok v =>
      match runBatches g maxRetries bs with
      | .error e => .error e
      | .ok rest => .ok (v ++ rest)

/-- `EmbeddingService.generateEmbeddingsBatch`.  `provider a` is the
embedding endpoint as observed by attempt number `a` of a batch (the network
may answer differently on different attempts; on each attempt the batch goes
through `generateEmbeddings`, including its dimension filter).  The inter-batch
and backoff `setTimeout` delays have no observable effect here. -/
def generateEmbeddingsBatch (dim : Nat)
    (provider : Nat → List σ → Except String (List (List α)))
    (texts : List σ) (batchSize maxRetries : Nat) : Except String (List (List α)) :=
  runBatches (fun batch attempt => generateEmbeddings dim (provider attempt) batch)
    maxRetries (toBatches batchSize texts)

/-- `EmbeddingService.calculateCosineSimilarity`, over `ℝ` (the source uses
floating point; the claim's `≈ 1.0` is exact over `ℝ`). -/
noncomputable def calculateCosineSimilarity (embedding1 embedding2 : List ℝ) :
    Except String ℝ :=
  if embedding1.length ≠ embedding2.length then
    .error "Embeddings must have the same dimension"
  else
    let dotProduct := ((embedding1.zip embedding2).map (fun p => p.1 * p.2)).sum
    let norm1 := Real.sqrt ((embedding1.map (fun x => x * x)).sum)
    let norm2 := Real.sqrt ((embedding2.map (fun x => x * x)).sum)
    if norm1 = 0 ∨ norm2 = 0 then .ok 0
    else .ok (dotProduct / (norm1 * norm2))

/-! ## VectorDatabase (src/services/vectorDatabase.ts) -/

/-- One record handed to `index.upsert`.  `values` is `embeddings[index]`,
which in JS is `undefined` (here `none`) when `index` is past the end of the
embeddings array.  Of the spread metadata we keep the surfaced `content`. -/
structure UpsertRecord where
  id : String
  values : Option (List ℚ)
  content : List Char
  deriving DecidableEq, Repr

/-- The part of a `DocumentChunk` that `addDocuments` reads. -/
structure DocChunk where
  id : String
  content : List Char
  deriving DecidableEq, Repr

/-- The records built by `chunks.map((chunk, index) => ({id, values:
embeddings[index], metadata: {...}}))`, with the running JS map index made
explicit. -/
def buildVectorsFrom (embeddings : List (List ℚ)) : Nat → List DocChunk → List UpsertRecord
  | _, [] => []
  | i, c :: cs =>
    { id := c.id, values := embeddings[i]?, content := c.content } ::
      buildVectorsFrom embeddings (i + 1) cs

/-- The full record list upserted by `addDocuments`. -/
def buildVectors (chunks : List DocChunk) (embeddings : List (List ℚ)) : List UpsertRecord :=
  buildVectorsFrom embeddings 0 chunks

/-- The two Pinecone indexes, as the lists of records they hold.  Upsert
overwrite-by-id resolution is the external store's concern; the claims below
only look at records the adapter sends and at counts over distinct-id
states. -/
structure VDBState where
  files : List UpsertRecord
  memory : List UpsertRecord
  deriving DecidableEq, Repr

/-- `VectorDatabase.addDocuments`: no-op on an empty chunk list, otherwise
embed all chunk contents (`embedResult` is the outcome of
`generateEmbeddingsBatch`) and upsert one record per chunk; an embedding
failure is re-thrown with a wrapped message. -/
def addDocuments (s : VDBState) (chunks : List DocChunk)
    (embedResult : Except String (List (List ℚ))) : Except String VDBState :=
  if chunks.length = 0 then .ok s
  else
    match embedResult with
    | .ok embeddings => .ok { s with files := s.files ++ buildVectors chunks embeddings }
    | .error e => .error ("Failed to add documents to vector database: " ++ e)

/-- Metadata of a Pinecone query match; `content` is `metadata.content`,
which may be absent. -/
structure MatchMetadata where
  content : Option String
  deriving DecidableEq, Repr

/-- One match returned by `index.query`: `score` and `metadata` are optional
in the Pinecone response. -/
structure QueryMatch where
  id : String
  score : Option ℚ
  metadata : Option MatchMetadata
  deriving DecidableEq, Repr

/-- A `SearchResult` as assembled by `searchDocuments`/`searchMemory`. -/
structure SearchResult where
  id : String
  content : String
  metadata : MatchMetadata
  score : ℚ
  deriving DecidableEq, Repr

/-- The result-assembly loop shared by `searchDocuments` and `searchMemory`:
`score = match.score || 0`; keep the match only if `score >= threshold` and
`match.metadata` is present; surface `metadata.content || ''` as content. -/
def filterMatches (threshold : ℚ) (matchList : List QueryMatch) : List SearchResult :=
  matchList.filterMap (fun m =>
    let score := m.score.getD 0
    match m.metadata with
    | some md =>
      if threshold ≤ score then
        some { id := m.id, content := md.content.getD "", metadata := md, score := score }
      else none
    | none => none)

/-- `SearchOptions` (limit/threshold; the metadata filter and
`includeMetadata` do not affect the claims and are part of the query the
oracle answers). -/
structure SearchOptions where
  limit : Option Nat
  threshold : Option ℚ
  deriving DecidableEq, Repr

/-- JS `x || d` over an optional number: `undefined` and `0` give `d`. -/
def jsOrNat (d : Nat) : Option Nat → Nat
  | none => d
  | some n => if n = 0 then d else n

/-- JS `x || d` over an optional rational: `undefined` and `0` give `d`. -/
def jsOrRat (d : ℚ) : Option ℚ → ℚ
  | none => d
  | some q => if q = 0 then d else q

/-- `VectorDatabase.searchDocuments`: resolve `limit`/`threshold` defaults
(`options.limit || 10`, `options.threshold || 0.7`), query the files index
with `topK = limit` (the oracle `index` maps the requested `topK` to the
store's match list; the query vector and filter are fixed inside it), then
filter and assemble the results. -/
def searchDocuments (index : Nat → List QueryMatch) (options : SearchOptions) :
    List SearchResult :=
  let limit := jsOrNat 10 options.limit
  let threshold := jsOrRat (7/10) options.threshold
  filterMatches threshold (index limit)

/-- `VectorDatabase.searchMemory`: identical post-processing over the memory
index (the agent-id filter handed down by `RAGService.searchMemory` is part
of the query the oracle answers). -/
def searchMemory (index : Nat → List QueryMatch) (options : SearchOptions) :
    List SearchResult :=
  let limit := jsOrNat 10 options.limit
  let threshold := jsOrRat (7/10) options.threshold
  filterMatches threshold (index limit)

/-- `MCPRAGServer.handleSearchFiles` composed with `RAGService.searchFiles`
(which forwards the options unchanged): the tool arguments are defaulted once
in the handler (`args.limit || 10`, `args.threshold || 0.7`) and once more in
`searchDocuments`. -/
def handleSearchFiles (index : Nat → List QueryMatch)
    (limitArg : Option Nat) (thresholdArg : Option ℚ) : List SearchResult :=
  searchDocuments index
    { limit := some (jsOrNat 10 limitArg), threshold := some (jsOrRat (7/10) thresholdArg) }

/-- `MCPRAGServer.handleSearchMemory` composed with
`RAGService.searchMemory`. -/
def handleSearchMemory (index : Nat → List QueryMatch)
    (limitArg : Option Nat) (thresholdArg : Option ℚ) : List SearchResult :=
  searchMemory index
    { limit := some (jsOrNat 10 limitArg), threshold := some (jsOrRat (7/10) thresholdArg) }

/-- `VectorDatabase.getDocumentCount`: `describeIndexStats()` is the oracle
argument (`error` = the call threw, `ok none` = `totalVectorCount` absent);
the catch returns `0`, and `totalVectorCount || 0` defaults an absent count
to `0`. -/
def getDocumentCount (statsCall : Except String (Option Nat)) : Nat :=
  match statsCall with
  | .ok (some n) => n
  | .ok none => 0
  | .error _ => 0

/-- `VectorDatabase.getMemoryCount`: same body over the memory index. -/
def getMemoryCount (statsCall : Except String (Option Nat)) : Nat :=
  match statsCall with
  | .ok (some n) => n
  | .ok none => 0
  | .error _ => 0

/-- The stats record returned by `getCollectionStats`. -/
structure CollectionStats where
  documents : Nat
  memory : Nat
  total : Nat
  deriving DecidableEq, Repr

/-- `VectorDatabase.getCollectionStats`: `Promise.all` of the two counts.
Each count catches its own store failure and yields `0`, so the promises
never reject and the function's own catch (returning all zeros) is
unreachable for count failures; the result is always assembled from the two
independent fallbacks. -/
def getCollectionStats (docStatsCall memStatsCall : Except String (Option Nat)) :
    CollectionStats :=
  { documents := getDocumentCount docStatsCall,
    memory := getMemoryCount memStatsCall,
    total := getDocumentCount docStatsCall + getMemoryCount memStatsCall }

/-- The scope argument of `RAGService.clearData`. -/
inductive ClearScope
  | files
  | memory
  | all
  deriving DecidableEq, Repr

/-- Outcome shape of the mutating orchestrator operations. -/
structure OpResult where
  success : Bool
  message : String
  deriving DecidableEq, Repr

/-- `VectorDatabase.clearCollection`: the `try` body selects the index and
then only logs `Cleared ... index` — no delete is ever issued, so the store
state is returned unchanged and no error can arise. -/
def clearCollection (s : VDBState) (_collectionName : String) : VDBState := s

/-- `RAGService.clearData`: dispatch to `clearCollection` by scope.  Since
`clearCollection` never throws, the catch branch is unreachable and the
result is always a success message. -/
def clearData (s : VDBState) (scope : ClearScope) : VDBState × OpResult :=
  let s1 := if scope = ClearScope.files ∨ scope = ClearScope.all then
    clearCollection s "files" else s
  let s2 := if scope = ClearScope.memory ∨ scope = ClearScope.all then
    clearCollection s1 "memory" else s1
  (s2, { success := true, message := "data cleared successfully" })

/-- `getCollectionStats` as observed against a reachable store whose records
have distinct ids: `describeIndexStats().totalVectorCount` is the number of
stored vectors of each index. -/
def statsOfState (s : VDBState) : CollectionStats :=
  getCollectionStats (.ok (some s.files.length)) (.ok (some s.memory.length))

/-! ## Auxiliary definitions used by the theorems -/

/-- The head character, when present, is not whitespace. -/
def headSolid (l : List Char) : Prop := ∀ c ∈ l.head?, isWs c = false

/-- The last character, when present, is not whitespace. -/
def lastSolid (l : List Char) : Prop := ∀ c ∈ l.getLast?, isWs c = false

/-- The overlap relation between the contents of two consecutive chunks:
the later one starts with the leading-whitespace-stripped overlap tail of
the earlier one. -/
def ovlRel (O : Nat) (a b : List Char) : Prop :=
  ∃ t, b = trimL (getOverlapText a O) ++ t

/-- The chunk contents a loop state will have produced if it is flushed now:
the emitted chunk contents followed by the trimmed buffer (when the buffer
is non-empty). -/
def pending (st : List Chunk × List Char × Nat) : List (List Char) :=
  st.1.map Chunk.content ++ (if st.2.1 = [] then [] else [trim st.2.1])

/-- The invariant maintained by the `createChunks` loop (for a positive
overlap and trimmed non-empty sentences). -/
structure LoopInv (O : Nat) (st : List Chunk × List Char × Nat) : Prop where
  bufNilChunks : st.2.1 = [] → st.1 = []
  bufTrimR : trimR st.2.1 = st.2.1
  bufSolid : st.2.1 ≠ [] → ∃ c ∈ st.2.1, isWs c = false
  chain : List.Chain' (ovlRel O) (pending st)

/-- Total length of a list of character lists. -/
def sumLen (l : List (List Char)) : Nat := (l.map List.length).sum

/-- The tail the `createChunks` loop appends after the first sentence: each
further sentence is preceded by a single space. -/
def joinTail (l : List (List Char)) : List Char :=
  (l.map (fun t => ' ' :: t)).flatten

/-- Sentences joined by single spaces — the buffer the loop accumulates when
no split ever triggers. -/
def joinSp : List (List Char) → List Char
  | [] => []
  | s :: ss => s ++ joinTail ss

/-- Fixture: the text `"ab. cd. ef."`. -/
def cEx4Text : List Char := ['a', 'b', '.', ' ', 'c', 'd', '.', ' ', 'e', 'f', '.']

/-- Fixture: the text `"Hi. Bye."`. -/
def cEx5Text : List Char := ['H', 'i', '.', ' ', 'B', 'y', 'e', '.']

/-- Fixture embedding endpoint: the second batch (the one starting with text
`10`) fails on attempts `0` and `1` and succeeds from attempt `2` on; every
other batch succeeds immediately, with one 1-dimensional vector per text. -/
def cEx3Provider (attempt : Nat) (batch : List Nat) : Except String (List (List Nat)) :=
  if batch.headD 0 = 10 ∧ attempt < 2 then .error "batch temporarily failing"
  else .ok (batch.map (fun x => [x]))

/-- Fixture store: a query with `topK = 10` returns one high-scoring match,
any other `topK` returns none. -/
def cEx6Index (topK : Nat) : List QueryMatch :=
  if topK = 10 then
    [{ id := "m1", score := some 1, metadata := some { content := some "x" } }]
  else []

/-- Fixture: two chunks to upsert. -/
def cEx9Chunks : List DocChunk := [{ id := "a", content := ['x'] }, { id := "b", content := ['y'] }]

/-- Fixture: a store holding exactly one document chunk. -/
def cEx1State : VDBState :=
  { files := [{ id := "chunk-1", values := some [1], content := ['h', 'i'] }], memory := [] }

/-! ## Generic `dropWhile` and trimming lemmas -/

theorem lenDropWhileLe {α : Type} (p : α → Bool) (l : List α) :
    (l.dropWhile p).length ≤ l.length := by
  induction l with
  | nil => simp
  | cons a t ih =>
    by_cases h : p a
    · simp only [List.dropWhile_cons, h, if_true]
      exact Nat.le_succ_of_le ih
    · simp [List.dropWhile_cons, h]

theorem dropWhileEqSelf {α : Type} (p : α → Bool) (l : List α) :
    l.dropWhile p = l ↔ ∀ c ∈ l.head?, p c = false := by
  cases l with
  | nil => simp
  | cons a t =>
    by_cases h : p a
    · simp only [List.dropWhile_cons, h, if_true, List.head?_cons]
      constructor
      · intro heq
        have hlen := congrArg List.length heq
        have hle := lenDropWhileLe p t
        simp only [List.length_cons] at hlen
        omega
      · intro hall
        have := hall a rfl
        rw [h] at this
        cases this
    · simp [List.dropWhile_cons, h]

theorem dropWhileLenEq {α : Type} (p : α → Bool) (l : List α)
    (h : (l.dropWhile p).length = l.length) : l.dropWhile p = l := by
  induction l with
  | nil => simp
  | cons a t ih =>
    by_cases hp : p a
    · exfalso
      have := lenDropWhileLe p t
      simp only [List.dropWhile_cons, hp, if_true, List.length_cons] at h
      omega
    · simp [List.dropWhile_cons, hp]

theorem headDropWhileFalse {α : Type} (p : α → Bool) (l : List α) :
    ∀ c ∈ (l.dropWhile p).head?, p c = false := by
  induction l with
  | nil => simp
  | cons a t ih =>
    by_cases h : p a
    · simpa [List.dropWhile_cons, h] using ih
    · simp only [List.dropWhile_cons, h, if_false, List.head?_cons]
      intro c hc
      cases hc
      simpa using h

theorem trimLIdem (l : List Char) : trimL (trimL l) = trimL l :=
  (dropWhileEqSelf isWs (trimL l)).2 (headDropWhileFalse isWs l)

theorem trimLEqSelfIff (l : List Char) : trimL l = l ↔ headSolid l :=
  dropWhileEqSelf isWs l

theorem trimREqSelfIff (l : List Char) : trimR l = l ↔ lastSolid l := by
  unfold trimR lastSolid
  constructor
  · intro h c hc
    have h2 : l.reverse.dropWhile isWs = l.reverse := by
      have := congrArg List.reverse h
      simpa using this
    rw [← List.head?_reverse] at hc
    exact (dropWhileEqSelf isWs l.reverse).1 h2 c hc
  · intro h
    have h2 : l.reverse.dropWhile isWs = l.reverse := by
      refine (dropWhileEqSelf isWs l.reverse).2 ?_
      intro c hc
      exact h c (by rwa [List.head?_reverse] at hc)
    rw [h2, List.reverse_reverse]

theorem trimREqSelfOfLen (l : List Char) (h : (trimR l).length = l.length) :
    trimR l = l := by
  unfold trimR at *
  simp only [List.length_reverse] at h
  have h2 : (l.reverse.dropWhile isWs).length = l.reverse.length := by
    simpa using h
  rw [dropWhileLenEq _ _ h2, List.reverse_reverse]

theorem trimSelfParts (l : List Char) (h : trim l = l) :
    trimL l = l ∧ trimR l = l := by
  have h1 : (trim l).length ≤ (trimR l).length := lenDropWhileLe isWs (trimR l)
  have h2 : (trimR l).length ≤ l.length := by
    unfold trimR
    simpa using lenDropWhileLe isWs l.reverse
  have hlen : (trim l).length = l.length := by rw [h]
  have hR : trimR l = l := trimREqSelfOfLen l (by omega)
  refine ⟨?_, hR⟩
  have : trim l = trimL l := by rw [trim, hR]
  rw [← this, h]

theorem trimLAppendSolid (l r : List Char) (h : ∃ c ∈ l, isWs c = false) :
    trimL (l ++ r) = trimL l ++ r := by
  induction l with
  | nil => simp at h
  | cons a t ih =>
    by_cases hw : isWs a
    · have ht : ∃ c ∈ t, isWs c = false := by
        obtain ⟨c, hc, hcw⟩ := h
        rcases List.mem_cons.1 hc with hca | hct
        · subst hca; rw [hw] at hcw; cases hcw
        · exact ⟨c, hct, hcw⟩
      simp only [trimL, List.cons_append, List.dropWhile_cons, hw, if_true]
      exact ih ht
    · simp [trimL, List.dropWhile_cons, hw]

theorem trimLAppendWs (l r : List Char) (h : ∀ c ∈ l, isWs c = true) :
    trimL (l ++ r) = trimL r := by
  induction l with
  | nil => simp
  | cons a t ih =>
    have ha : isWs a = true := h a (List.mem_cons_self a t)
    simp only [trimL, List.cons_append, List.dropWhile_cons, ha, if_true]
    exact ih (fun c hc => h c (List.mem_cons_of_mem a hc))

theorem trimLNeNil (l : List Char) (h : ∃ c ∈ l, isWs c = false) :
    trimL l ≠ [] := by
  induction l with
  | nil => simp at h
  | cons a t ih =>
    by_cases hw : isWs a
    · have ht : ∃ c ∈ t, isWs c = false := by
        obtain ⟨c, hc, hcw⟩ := h
        rcases List.mem_cons.1 hc with hca | hct
        · subst hca; rw [hw] at hcw; cases hcw
        · exact ⟨c, hct, hcw⟩
      simpa [trimL, List.dropWhile_cons, hw] using ih ht
    · simp [trimL, List.dropWhile_cons, hw]

theorem headSolidOfTrimL (l : List Char) (hl : l ≠ []) (h : trimL l = l) :
    ∃ c ∈ l, isWs c = false := by
  cases l with
  | nil => cases hl rfl
  | cons a t =>
    refine ⟨a, List.mem_cons_self a t, ?_⟩
    by_contra hw
    have ha : isWs a = true := by
      cases hh : isWs a
      · exact absurd hh hw
      · rfl
    have := congrArg List.length h
    simp only [trimL, List.dropWhile_cons, ha, if_true, List.length_cons] at this
    have := lenDropWhileLe isWs t
    omega

theorem getLastAppendNe {α : Type} (l r : List α) (hr : r ≠ []) :
    (l ++ r).getLast? = r.getLast? := by
  rw [List.getLast?_append]
  cases hg : r.getLast? with
  | some c => rfl
  | none =>
    exfalso
    rw [← List.head?_reverse] at hg
    rw [List.head?_eq_none_iff] at hg
    exact hr (by simpa using congrArg List.reverse hg)

theorem lastSolidAppend (l r : List Char) (hr : r ≠ []) (h : lastSolid r) :
    lastSolid (l ++ r) := by
  unfold lastSolid at *
  rw [getLastAppendNe l r hr]
  exact h

theorem lastSolidConsNe (c : Char) (s : List Char) (hs : s ≠ []) (h : lastSolid s) :
    lastSolid (c :: s) := lastSolidAppend [c] s hs h

theorem trimRAppend (l r : List Char) (hr : r ≠ []) (h : trimR r = r) :
    trimR (l ++ r) = l ++ r :=
  (trimREqSelfIff _).2 (lastSolidAppend l r hr ((trimREqSelfIff r).1 h))

theorem getLastDropNe {α : Type} (l : List α) (k : Nat) (hk : k < l.length) :
    (l.drop k).getLast? = l.getLast? := by
  conv_rhs => rw [← List.take_append_drop k l]
  rw [getLastAppendNe]
  intro hnil
  have := congrArg List.length hnil
  simp only [List.length_drop, List.length_nil] at this
  omega

theorem trimIdem (l : List Char) : trim (trim l) = trim l := by
  have hRR : trimR (trimR l) = trimR l := by
    unfold trimR
    rw [List.reverse_reverse]
    exact congrArg List.reverse ((dropWhileEqSelf isWs _).2 (headDropWhileFalse isWs l.reverse))
  have hlastR : lastSolid (trimR l) := (trimREqSelfIff _).1 hRR
  have hRtrim : trimR (trim l) = trim l := by
    rcases heq : trim l with _ | ⟨a, t⟩
    · simp [trimR]
    · rw [← heq]
      refine (trimREqSelfIff _).2 ?_
      have hde : (trimR l).takeWhile isWs ++ (trimR l).dropWhile isWs = trimR l :=
        List.takeWhile_append_dropWhile isWs (trimR l)
      have hdne : (trimR l).dropWhile isWs ≠ [] := by
        have : trim l = (trimR l).dropWhile isWs := rfl
        rw [← this, heq]
        simp
      unfold trim trimL
      intro c hc
      rw [← hde] at hlastR
      have h3 : (List.takeWhile isWs (trimR l) ++ List.dropWhile isWs (trimR l)).getLast? =
          (List.dropWhile isWs (trimR l)).getLast? := getLastAppendNe _ _ hdne
      exact hlastR c (by rw [h3]; exact hc)
  calc trim (trim l) = trimL (trim l) := by rw [trim, hRtrim]
    _ = trimL (trimL (trimR l)) := rfl
    _ = trimL (trimR l) := trimLIdem _
    _ = trim l := rfl

theorem memOfGetLast {α : Type} (l : List α) (c : α) (h : l.getLast? = some c) :
    c ∈ l := by
  rw [← List.head?_reverse] at h
  have : c ∈ l.reverse := List.mem_of_mem_head? h
  simpa using this

theorem getLastSomeOfNe {α : Type} (l : List α) (hl : l ≠ []) :
    ∃ c, l.getLast? = some c := by
  rw [← List.head?_reverse]
  cases hh : l.reverse.head? with
  | some c => exact ⟨c, rfl⟩
  | none =>
    exfalso
    rw [List.head?_eq_none_iff] at hh
    exact hl (by simpa using congrArg List.reverse hh)

/-! ## Overlap-tail lemmas -/

theorem getLastOvl (l : List Char) (O : Nat) (hO : 0 < O) :
    (getOverlapText l O).getLast? = l.getLast? := by
  unfold getOverlapText
  by_cases h1 : l.length ≤ O
  · rw [if_pos h1]
  · rw [if_neg h1, if_neg (by omega)]
    exact getLastDropNe l (l.length - O) (by omega)

theorem ovlSolid (l : List Char) (O : Nat) (hO : 0 < O) (hl : l ≠ [])
    (h : lastSolid l) : ∃ c ∈ getOverlapText l O, isWs c = false := by
  obtain ⟨c, hc⟩ := getLastSomeOfNe l hl
  refine ⟨c, ?_, h c hc⟩
  exact memOfGetLast _ c (by rw [getLastOvl l O hO, hc])

theorem trimLOvlTrim (l : List Char) (O : Nat) (hO : 0 < O) :
    trimL (getOverlapText l O) = trimL (getOverlapText (trimL l) O) := by
  have hde : l.takeWhile isWs ++ l.dropWhile isWs = l :=
    List.takeWhile_append_dropWhile isWs l
  have hwws : ∀ x ∈ l.takeWhile isWs, isWs x = true :=
    fun x hx => List.mem_takeWhile_imp hx
  have hlen : (l.takeWhile isWs).length + (l.dropWhile isWs).length = l.length := by
    have h := congrArg List.length hde
    rw [List.length_append] at h
    exact h
  have hcl : trimL l = l.dropWhile isWs := rfl
  rw [hcl]
  unfold getOverlapText
  by_cases h1 : l.length ≤ O
  · rw [if_pos h1, if_pos (by omega)]
    conv_lhs => rw [← hde]
    exact trimLAppendWs _ _ hwws
  · rw [if_neg h1]
    rw [if_neg (by omega)]
    by_cases h2 : O ≤ (l.dropWhile isWs).length
    · have hdrop : l.drop (l.length - O) =
          (l.dropWhile isWs).drop ((l.dropWhile isWs).length - O) := by
        have h4 : l.drop (l.length - O) =
            (l.takeWhile isWs ++ l.dropWhile isWs).drop (l.length - O) := by rw [hde]
        rw [h4, List.drop_append_eq_append_drop]
        have h5 : l.length - O - (l.takeWhile isWs).length =
            (l.dropWhile isWs).length - O := by omega
        have h6 : (l.takeWhile isWs).drop (l.length - O) = [] :=
          List.drop_eq_nil_of_le (by omega)
        rw [h5, h6, List.nil_append]
      rw [hdrop]
      by_cases h3 : (l.dropWhile isWs).length ≤ O
      · rw [if_pos h3]
        have h7 : (l.dropWhile isWs).length - O = 0 := by omega
        rw [h7, List.drop_zero]
      · rw [if_neg h3, if_neg (by omega)]
    · have hdrop : l.drop (l.length - O) =
          (l.takeWhile isWs).drop (l.length - O) ++ l.dropWhile isWs := by
        have h4 : l.drop (l.length - O) =
            (l.takeWhile isWs ++ l.dropWhile isWs).drop (l.length - O) := by rw [hde]
        rw [h4, List.drop_append_eq_append_drop]
        have h5 : l.length - O - (l.takeWhile isWs).length = 0 := by omega
        rw [h5, List.drop_zero]
      rw [hdrop]
      rw [if_pos (by omega)]
      refine trimLAppendWs _ _ ?_
      intro x hx
      exact hwws x (List.mem_of_mem_drop hx)

theorem trimOvlAppend (buf s : List Char) (O : Nat) (hO : 0 < O)
    (hbuf : buf ≠ []) (hR : trimR buf = buf)
    (hs : s ≠ []) (hsR : trimR s = s) :
    trim (getOverlapText buf O ++ s) = trimL (getOverlapText buf O) ++ s := by
  have hsolid : ∃ c ∈ getOverlapText buf O, isWs c = false :=
    ovlSolid buf O hO hbuf ((trimREqSelfIff buf).1 hR)
  have h1 : trimR (getOverlapText buf O ++ s) = getOverlapText buf O ++ s :=
    trimRAppend _ s hs hsR
  rw [trim, h1]
  exact trimLAppendSolid _ s hsolid

theorem trimAppendSent (buf s : List Char) (hR : trimR buf = buf)
    (hsolid : ∃ c ∈ buf, isWs c = false) (hs : s ≠ []) (hsR : trimR s = s) :
    trim (buf ++ ' ' :: s) = trim buf ++ ' ' :: s := by
  have h1 : trimR (buf ++ ' ' :: s) = buf ++ ' ' :: s :=
    trimRAppend buf (' ' :: s) (by simp)
      ((trimREqSelfIff _).2 (lastSolidConsNe ' ' s hs ((trimREqSelfIff s).1 hsR)))
  have h2 : trim buf = trimL buf := by rw [trim, hR]
  rw [trim, h1, trimLAppendSolid buf _ hsolid, h2]

theorem chainSnocExtend (O : Nat) (l : List (List Char)) (a t : List Char)
    (h : List.Chain' (ovlRel O) (l ++ [a])) :
    List.Chain' (ovlRel O) (l ++ [a ++ t]) := by
  rcases List.chain'_append.1 h with ⟨h1, _, h3⟩
  refine List.chain'_append.2 ⟨h1, List.chain'_singleton _, ?_⟩
  intro x hx y hy
  simp only [List.head?_cons, Option.mem_def, Option.some.injEq] at hy
  obtain ⟨u, hu⟩ := h3 x hx a (by simp)
  subst hy
  exact ⟨u ++ t, by rw [hu, List.append_assoc]⟩

theorem chainSnocLink (O : Nat) (l : List (List Char)) (b : List Char)
    (h : List.Chain' (ovlRel O) l)
    (hlink : ∀ x ∈ l.getLast?, ovlRel O x b) :
    List.Chain' (ovlRel O) (l ++ [b]) := by
  refine List.chain'_append.2 ⟨h, List.chain'_singleton _, ?_⟩
  intro x hx y hy
  simp only [List.head?_cons, Option.mem_def, Option.some.injEq] at hy
  subst hy
  exact hlink x hx

theorem chunkStepEqPos (size O : Nat) (cs : List Chunk) (buf : List Char) (idx : Nat)
    (s : List Char) (h : s ≠ [] ∧ size < buf.length + s.length ∧ 0 < buf.length) :
    chunkStep size O (cs, buf, idx) s =
      (cs ++ [⟨trim buf, idx, cs.length + 1⟩], getOverlapText buf O ++ s, idx + 1) := by
  unfold chunkStep
  rw [if_pos h]

theorem chunkStepEqNeg (size O : Nat) (cs : List Chunk) (buf : List Char) (idx : Nat)
    (s : List Char) (h : ¬(s ≠ [] ∧ size < buf.length + s.length ∧ 0 < buf.length)) :
    chunkStep size O (cs, buf, idx) s =
      (cs, buf ++ (if buf ≠ [] then ' ' :: s else s), idx) := by
  unfold chunkStep
  rw [if_neg h]

theorem chunkStepInv (size O : Nat) (hO : 0 < O) (st : List Chunk × List Char × Nat)
    (s : List Char) (hsne : s ≠ []) (hst : trim s = s) (h : LoopInv O st) :
    LoopInv O (chunkStep size O st s) := by
  obtain ⟨cs, buf, idx⟩ := st
  obtain ⟨hsL, hsR⟩ := trimSelfParts s hst
  have hssolid : ∃ c ∈ s, isWs c = false := headSolidOfTrimL s hsne hsL
  by_cases hg : s ≠ [] ∧ size < buf.length + s.length ∧ 0 < buf.length
  · rw [chunkStepEqPos size O cs buf idx s hg]
    have hbufne : buf ≠ [] := by
      intro hnil
      rw [hnil] at hg
      simp at hg
    have hnewne : getOverlapText buf O ++ s ≠ [] := by simp [hsne]
    have hpold : pending (cs, buf, idx) = cs.map Chunk.content ++ [trim buf] := by
      unfold pending
      rw [if_neg hbufne]
    refine ⟨fun hnil => absurd hnil hnewne, ?_, ?_, ?_⟩
    · exact trimRAppend _ s hsne hsR
    · intro _
      obtain ⟨c, hc, hcw⟩ := hssolid
      exact ⟨c, List.mem_append_right _ hc, hcw⟩
    · have hK1 : trim (getOverlapText buf O ++ s) = trimL (getOverlapText buf O) ++ s :=
        trimOvlAppend buf s O hO hbufne h.bufTrimR hsne hsR
      have htb : trim buf = trimL buf := by rw [trim, h.bufTrimR]
      have hK2 : trimL (getOverlapText buf O) = trimL (getOverlapText (trim buf) O) := by
        rw [htb]
        exact trimLOvlTrim buf O hO
      have hlink : ovlRel O (trim buf) (trim (getOverlapText buf O ++ s)) :=
        ⟨s, by rw [hK1, hK2]⟩
      have hchain := h.chain
      rw [hpold] at hchain
      have hres : List.Chain' (ovlRel O)
          ((cs.map Chunk.content ++ [trim buf]) ++ [trim (getOverlapText buf O ++ s)]) := by
        refine chainSnocLink O _ _ hchain ?_
        intro x hx
        rw [getLastAppendNe _ _ (by simp)] at hx
        simp only [List.getLast?_singleton, Option.mem_def, Option.some.injEq] at hx
        subst hx
        exact hlink
      unfold pending
      rw [if_neg hnewne, List.map_append]
      simpa [List.append_assoc] using hres
  · rw [chunkStepEqNeg size O cs buf idx s hg]
    by_cases hb : buf = []
    · subst hb
      have hcs : cs = [] := h.bufNilChunks rfl
      subst hcs
      have hred : (([] : List Char) ++ (if ([] : List Char) ≠ [] then ' ' :: s else s)) = s := by
        simp
      rw [hred]
      refine ⟨fun _ => rfl, hsR, fun _ => hssolid, ?_⟩
      unfold pending
      rw [if_neg hsne]
      simp [hst]
    · have hred : (buf ++ (if buf ≠ [] then ' ' :: s else s)) = buf ++ ' ' :: s := by
        rw [if_pos hb]
      rw [hred]
      have hnewne : buf ++ ' ' :: s ≠ [] := by simp
      have hsolid := h.bufSolid hb
      refine ⟨fun hnil => absurd hnil hnewne, ?_, ?_, ?_⟩
      · exact trimRAppend buf (' ' :: s) (by simp)
          ((trimREqSelfIff _).2 (lastSolidConsNe ' ' s hsne ((trimREqSelfIff s).1 hsR)))
      · intro _
        obtain ⟨c, hc, hcw⟩ := hsolid
        exact ⟨c, List.mem_append_left _ hc, hcw⟩
      · have hext : trim (buf ++ ' ' :: s) = trim buf ++ ' ' :: s :=
          trimAppendSent buf s h.bufTrimR hsolid hsne hsR
        have hchain := h.chain
        have hpold : pending (cs, buf, idx) = cs.map Chunk.content ++ [trim buf] := by
          unfold pending
          rw [if_neg hb]
        rw [hpold] at hchain
        unfold pending
        rw [if_neg hnewne, hext]
        exact chainSnocExtend O (cs.map Chunk.content) (trim buf) (' ' :: s) hchain

theorem chunkFoldInv (size O : Nat) (hO : 0 < O) (ss : List (List Char))
    (hss : ∀ s ∈ ss, s ≠ [] ∧ trim s = s) :
    ∀ st, LoopInv O st → LoopInv O (ss.foldl (chunkStep size O) st) := by
  induction ss with
  | nil => intro st h; exact h
  | cons s rest ih =>
    intro st h
    have hs := hss s (List.mem_cons_self s rest)
    exact ih (fun x hx => hss x (List.mem_cons_of_mem s hx)) _
      (chunkStepInv size O hO st s hs.1 hs.2 h)

theorem sentencesGood (text : List Char) :
    ∀ s ∈ splitIntoSentences text, s ≠ [] ∧ trim s = s := by
  intro s hs
  unfold splitIntoSentences at hs
  rw [List.mem_filter] at hs
  obtain ⟨hmem, hlen⟩ := hs
  rw [List.mem_map] at hmem
  obtain ⟨u, _, hu⟩ := hmem
  constructor
  · intro hnil
    rw [hnil] at hlen
    simp at hlen
  · rw [← hu]
    exact trimIdem u

theorem loopInvInit (O : Nat) : LoopInv O ([], [], 0) := by
  refine ⟨fun _ => rfl, rfl, fun h => absurd rfl h, ?_⟩
  unfold pending
  simp

theorem createChunksChain (size O : Nat) (hO : 0 < O) (text : List Char) :
    List.Chain' (ovlRel O) ((createChunks size O text).map Chunk.content) := by
  have hinv := chunkFoldInv size O hO (splitIntoSentences text) (sentencesGood text)
    ([], [], 0) (loopInvInit O)
  unfold createChunks
  set st := (splitIntoSentences text).foldl (chunkStep size O) ([], [], 0) with hst
  dsimp only
  by_cases hb : st.2.1 = []
  · have hcs : st.1 = [] := hinv.bufNilChunks hb
    rw [hb]
    have htrim : trim ([] : List Char) = [] := rfl
    rw [htrim]
    simp [hcs]
  · have htne : trim st.2.1 ≠ [] := by
      have hsol := hinv.bufSolid hb
      have h2 : trim st.2.1 = trimL st.2.1 := by rw [trim, hinv.bufTrimR]
      rw [h2]
      exact trimLNeNil _ hsol
    rw [if_pos (List.length_pos.2 htne)]
    rw [List.map_append]
    have hp : pending st = st.1.map Chunk.content ++ [trim st.2.1] := by
      unfold pending
      rw [if_neg hb]
    have hc := hinv.chain
    rw [hp] at hc
    simpa using hc

/-- C4 (amended): for every text split with a positive overlap `O`, the
content of each chunk after the first starts with the last at-most-`O`
characters of the loop buffer of the previous chunk with leading whitespace
stripped, which equals `trimL (getOverlapText previous.content O)`.  The
claim's unstripped version is refuted by `C4_counterexample`. -/
theorem C4_overlap_amended (size O : Nat) (hO : 0 < O) (text : List Char)
    (i : Nat) (h : i + 1 < (createChunks size O text).length) :
    ∃ t, ((createChunks size O text).get ⟨i + 1, h⟩).content =
      trimL (getOverlapText ((createChunks size O text).get ⟨i, by omega⟩).content O)
        ++ t := by
  have hchain := createChunksChain size O hO text
  rw [List.chain'_iff_get] at hchain
  have hlen : i < ((createChunks size O text).map Chunk.content).length - 1 := by
    rw [List.length_map]
    omega
  have hrel := hchain i hlen
  simp only [List.get_eq_getElem, List.getElem_map] at hrel
  simp only [List.get_eq_getElem]
  exact hrel

/-- C4 counterexample: on `"ab. cd. ef."` with `chunkSize = 5` and
`chunkOverlap = 3` the chunks are `"ab cd"` and `"cdef"`, and the last 3
characters of `"ab cd"` (namely `" cd"`) are not a prefix of `"cdef"` — the
leading space of the overlap tail is destroyed by the `trim` at emission. -/
theorem C4_counterexample :
    (createChunks 5 3 cEx4Text).map Chunk.content =
      [['a', 'b', ' ', 'c', 'd'], ['c', 'd', 'e', 'f']] ∧
    getOverlapText ['a', 'b', ' ', 'c', 'd'] 3 = [' ', 'c', 'd'] ∧
    ¬ ∃ t, ['c', 'd', 'e', 'f'] = getOverlapText ['a', 'b', ' ', 'c', 'd'] 3 ++ t := by
  refine ⟨by decide, by decide, ?_⟩
  rintro ⟨t, ht⟩
  rw [show getOverlapText ['a', 'b', ' ', 'c', 'd'] 3 = [' ', 'c', 'd'] from by decide] at ht
  have h2 := congrArg List.head? ht
  simp at h2

/-- C4 witness: the amended overlap property evaluated at the counterexample
input's only boundary. -/
theorem C4_overlap_amended_witness :
    ∃ t, ((createChunks 5 3 cEx4Text).get ⟨1, by decide⟩).content =
      trimL (getOverlapText ((createChunks 5 3 cEx4Text).get ⟨0, by decide⟩).content 3)
        ++ t :=
  C4_overlap_amended 5 3 (by decide) cEx4Text 0 (by decide)

theorem chunkFoldMeta (size O : Nat) (ss : List (List Char)) :
    ∀ st : List Chunk × List Char × Nat,
      st.2.2 = st.1.length →
      st.1.map Chunk.chunkIndex = List.range st.1.length →
      (∀ c ∈ st.1, c.totalChunks = c.chunkIndex + 1) →
      (ss.foldl (chunkStep size O) st).2.2 = (ss.foldl (chunkStep size O) st).1.length ∧
      (ss.foldl (chunkStep size O) st).1.map Chunk.chunkIndex =
        List.range (ss.foldl (chunkStep size O) st).1.length ∧
      ∀ c ∈ (ss.foldl (chunkStep size O) st).1, c.totalChunks = c.chunkIndex + 1 := by
  induction ss with
  | nil => intro st h1 h2 h3; exact ⟨h1, h2, h3⟩
  | cons s rest ih =>
    intro st h1 h2 h3
    obtain ⟨cs, buf, idx⟩ := st
    dsimp only at h1 h2 h3
    by_cases hg : s ≠ [] ∧ size < buf.length + s.length ∧ 0 < buf.length
    · rw [List.foldl_cons, chunkStepEqPos size O cs buf idx s hg]
      refine ih _ ?_ ?_ ?_
      · simp [h1]
      · dsimp only
        rw [List.map_append, h2, h1]
        simp [List.range_succ]
      · intro c hc
        rcases List.mem_append.1 hc with hm | hm
        · exact h3 c hm
        · rw [List.mem_singleton] at hm
          subst hm
          dsimp only
          omega
    · rw [List.foldl_cons, chunkStepEqNeg size O cs buf idx s hg]
      exact ih _ h1 h2 h3

/-- C8 (confirmed): every emitted chunk's `totalChunks` equals
`chunkIndex + 1`, i.e. one more than the number of chunks already emitted at
the moment it is created (`chunks.length + 1` with `chunkIndex` equal to the
running output length), and it is never corrected afterwards; consequently
`chunkIndex < totalChunks` and the chunk indexes are exactly
`0, 1, ..., N-1`. -/
theorem C8_totalChunks (size O : Nat) (text : List Char) :
    (createChunks size O text).map Chunk.chunkIndex =
      List.range (createChunks size O text).length ∧
    ∀ c ∈ createChunks size O text,
      c.totalChunks = c.chunkIndex + 1 ∧ c.chunkIndex < c.totalChunks := by
  obtain ⟨h1, h2, h3⟩ := chunkFoldMeta size O (splitIntoSentences text) ([], [], 0)
    rfl rfl (by simp)
  unfold createChunks
  set st := (splitIntoSentences text).foldl (chunkStep size O) ([], [], 0) with hst
  dsimp only
  by_cases hb : 0 < (trim st.2.1).length
  · rw [if_pos hb]
    constructor
    · rw [List.map_append, h2, h1]
      simp [List.range_succ]
    · intro c hc
      rcases List.mem_append.1 hc with hm | hm
      · have := h3 c hm
        omega
      · rw [List.mem_singleton] at hm
        subst hm
        dsimp only
        omega
  · rw [if_neg hb]
    refine ⟨h2, ?_⟩
    intro c hc
    have := h3 c hc
    omega

/-- C8 witness: evaluated on a two-chunk input; the second chunk has
`chunkIndex = 1` and `totalChunks = 2`. -/
theorem C8_totalChunks_witness :
    (createChunks 5 3 cEx4Text).map Chunk.chunkIndex =
      List.range (createChunks 5 3 cEx4Text).length ∧
    (⟨['c', 'd', 'e', 'f'], 1, 2⟩ : Chunk).totalChunks =
      (⟨['c', 'd', 'e', 'f'], 1, 2⟩ : Chunk).chunkIndex + 1 :=
  ⟨(C8_totalChunks 5 3 cEx4Text).1,
   ((C8_totalChunks 5 3 cEx4Text).2 ⟨['c', 'd', 'e', 'f'], 1, 2⟩ (by decide)).1⟩

theorem splitOnTermNeNil (l : List Char) : splitOnTerm l ≠ [] := by
  induction l with
  | nil => simp [splitOnTerm]
  | cons c cs ih =>
    by_cases h : isTerminator c
    · simp [splitOnTerm, h]
    · cases hsp : splitOnTerm cs with
      | nil => exact absurd hsp ih
      | cons s ss => simp [splitOnTerm, h, hsp]

theorem splitOnTermLen (l : List Char) :
    sumLen (splitOnTerm l) + (splitOnTerm l).length = l.length + 1 := by
  induction l with
  | nil => simp [splitOnTerm, sumLen]
  | cons c cs ih =>
    by_cases h : isTerminator c
    · simp only [splitOnTerm, h, if_true]
      simp only [sumLen, List.map_cons, List.sum_cons, List.length_nil,
        List.length_cons] at ih ⊢
      omega
    · cases hsp : splitOnTerm cs with
      | nil => exact absurd hsp (splitOnTermNeNil cs)
      | cons s ss =>
        rw [hsp] at ih
        simp only [sumLen, List.map_cons, List.sum_cons, List.length_cons] at ih
        simp [splitOnTerm, h, hsp, sumLen]
        omega

theorem sumLenFilterLe (p : List Char → Bool) (l : List (List Char)) :
    sumLen (l.filter p) ≤ sumLen l := by
  induction l with
  | nil => simp
  | cons a t ih =>
    simp only [sumLen] at ih
    by_cases h : p a
    · simp [List.filter_cons, h, sumLen]
      omega
    · simp [List.filter_cons, h, sumLen]
      omega

theorem lenTrimLe (a : List Char) : (trim a).length ≤ a.length := by
  have h1 : (trim a).length ≤ (trimR a).length := lenDropWhileLe isWs (trimR a)
  have h2 : (trimR a).length ≤ a.length := by
    unfold trimR
    simpa using lenDropWhileLe isWs a.reverse
  omega

theorem sumLenMapTrimLe (l : List (List Char)) :
    sumLen (l.map trim) ≤ sumLen l := by
  induction l with
  | nil => simp
  | cons a t ih =>
    have := lenTrimLe a
    simp only [List.map_cons, sumLen, List.sum_cons] at ih ⊢
    omega

theorem sentencesLenLe (text : List Char) :
    sumLen (splitIntoSentences text) + (splitIntoSentences text).length ≤
      text.length + 1 := by
  unfold splitIntoSentences
  have h1 := sumLenFilterLe (fun s => decide (0 < s.length)) ((splitOnTerm text).map trim)
  have h2 := List.length_filter_le (fun s => decide (0 < s.length))
    ((splitOnTerm text).map trim)
  have h3 := sumLenMapTrimLe (splitOnTerm text)
  have h4 : ((splitOnTerm text).map trim).length = (splitOnTerm text).length :=
    List.length_map _ _
  have h5 := splitOnTermLen text
  omega

theorem joinTailCons (s : List Char) (ss : List (List Char)) :
    joinTail (s :: ss) = ' ' :: joinSp (s :: ss) := by
  simp [joinTail, joinSp]

theorem joinSpNeNil (b : List Char) (bs : List (List Char)) (hb : b ≠ []) :
    joinSp (b :: bs) ≠ [] := by
  show b ++ joinTail bs ≠ []
  intro h
  rcases List.append_eq_nil.1 h with ⟨h1, -⟩
  exact hb h1

theorem chunkFoldNoSplit (size O : Nat) (rest : List (List Char)) :
    ∀ (cs : List Chunk) (buf : List Char) (idx : Nat),
      buf ≠ [] →
      buf.length + sumLen rest + rest.length ≤ size →
      rest.foldl (chunkStep size O) (cs, buf, idx) = (cs, buf ++ joinTail rest, idx) := by
  induction rest with
  | nil =>
    intro cs buf idx _ _
    simp [joinTail]
  | cons s rest ih =>
    intro cs buf idx hbuf hbound
    have hsum : sumLen (s :: rest) = s.length + sumLen rest := by
      simp [sumLen]
    rw [hsum, List.length_cons] at hbound
    have hng : ¬(s ≠ [] ∧ size < buf.length + s.length ∧ 0 < buf.length) := by
      rintro ⟨-, h2, -⟩
      omega
    rw [List.foldl_cons, chunkStepEqNeg size O cs buf idx s hng, if_pos hbuf]
    rw [ih cs (buf ++ ' ' :: s) idx (by simp) (by simp; omega)]
    rw [joinTailCons]
    show _ = (cs, buf ++ ' ' :: (s ++ joinTail rest), idx)
    simp

theorem joinSpLastSolid (ss : List (List Char)) :
    ss ≠ [] → (∀ s ∈ ss, s ≠ [] ∧ trim s = s) → lastSolid (joinSp ss) := by
  induction ss with
  | nil => intro h _; cases h rfl
  | cons s ss ih =>
    intro _ hss
    obtain ⟨hs1, hs2⟩ := hss s (List.mem_cons_self s ss)
    obtain ⟨-, hsR⟩ := trimSelfParts s hs2
    cases ss with
    | nil =>
      have hform : joinSp [s] = s := by simp [joinSp, joinTail]
      rw [hform]
      exact (trimREqSelfIff s).1 hsR
    | cons b bs =>
      have hrec : lastSolid (joinSp (b :: bs)) :=
        ih (by simp) (fun x hx => hss x (List.mem_cons_of_mem s hx))
      have hbne : joinSp (b :: bs) ≠ [] :=
        joinSpNeNil b bs (hss b (by simp)).1
      have hform : joinSp (s :: b :: bs) = s ++ ' ' :: joinSp (b :: bs) := by
        show s ++ joinTail (b :: bs) = _
        rw [joinTailCons]
      rw [hform]
      exact lastSolidAppend s _ (by simp) (lastSolidConsNe ' ' _ hbne hrec)

theorem joinSpTrim (ss : List (List Char)) (hne : ss ≠ [])
    (hss : ∀ s ∈ ss, s ≠ [] ∧ trim s = s) : trim (joinSp ss) = joinSp ss := by
  have hR : trimR (joinSp ss) = joinSp ss :=
    (trimREqSelfIff _).2 (joinSpLastSolid ss hne hss)
  rw [trim, hR]
  cases ss with
  | nil => cases hne rfl
  | cons s rest =>
    obtain ⟨hs1, hs2⟩ := hss s (List.mem_cons_self s rest)
    obtain ⟨hsL, -⟩ := trimSelfParts s hs2
    refine (trimLEqSelfIff _).2 ?_
    intro c hc
    have hform : joinSp (s :: rest) = s ++ joinTail rest := rfl
    rw [hform, List.head?_append_of_ne_nil s hs1] at hc
    exact (trimLEqSelfIff s).1 hsL c hc

/-- C5 (amended): for every input of length at most `chunkSize` with at least
one (non-whitespace) sentence unit, `createChunks` produces exactly one
chunk, whose content is the trimmed sentence units joined by single spaces —
not the verbatim trimmed input: the terminator characters `.`/`!`/`?` and the
whitespace around them are collapsed to single spaces (see
`C5_counterexample`). -/
theorem C5_single_chunk (size O : Nat) (text : List Char)
    (hlen : text.length ≤ size) (hne : splitIntoSentences text ≠ []) :
    createChunks size O text = [⟨joinSp (splitIntoSentences text), 0, 1⟩] := by
  obtain ⟨s, rest, hsr⟩ : ∃ s rest, splitIntoSentences text = s :: rest := by
    cases h : splitIntoSentences text with
    | nil => exact absurd h hne
    | cons a b => exact ⟨a, b, rfl⟩
  have hgood : ∀ x ∈ splitIntoSentences text, x ≠ [] ∧ trim x = x := sentencesGood text
  rw [hsr] at hgood
  have hbound := sentencesLenLe text
  rw [hsr] at hbound
  simp only [sumLen, List.map_cons, List.sum_cons, List.length_cons] at hbound
  have hs := hgood s (List.mem_cons_self s rest)
  unfold createChunks
  rw [hsr]
  dsimp only
  rw [List.foldl_cons, chunkStepEqNeg size O [] [] 0 s (by simp)]
  have hfirst : (([] : List Chunk), ([] : List Char) ++
      (if ([] : List Char) ≠ [] then ' ' :: s else s), 0) = ([], s, 0) := by
    simp
  rw [hfirst]
  rw [chunkFoldNoSplit size O rest [] s 0 hs.1 (by simp only [sumLen]; omega)]
  have hjoin : s ++ joinTail rest = joinSp (s :: rest) := rfl
  dsimp only
  rw [hjoin]
  have htrim : trim (joinSp (s :: rest)) = joinSp (s :: rest) :=
    joinSpTrim (s :: rest) (by simp) hgood
  rw [htrim]
  rw [if_pos (List.length_pos.2 (joinSpNeNil s rest hs.1))]
  simp

/-- C5 counterexample: `"Hi. Bye."` has length `8 ≤ 1000` and splits into
sentence units, yet the single produced chunk has content `"Hi Bye"`, which
is not the trimmed input `"Hi. Bye."` — the terminators are removed. -/
theorem C5_counterexample :
    cEx5Text.length ≤ 1000 ∧
    splitIntoSentences cEx5Text ≠ [] ∧
    (createChunks 1000 200 cEx5Text).length = 1 ∧
    (createChunks 1000 200 cEx5Text).map Chunk.content =
      [['H', 'i', ' ', 'B', 'y', 'e']] ∧
    trim cEx5Text = cEx5Text ∧
    (createChunks 1000 200 cEx5Text).map Chunk.content ≠ [trim cEx5Text] := by
  decide

/-- C5 witness: the amended single-chunk statement evaluated on `"hi"`. -/
theorem C5_single_chunk_witness :
    createChunks 10 2 ['h', 'i'] =
      [⟨joinSp (splitIntoSentences ['h', 'i']), 0, 1⟩] :=
  C5_single_chunk 10 2 ['h', 'i'] (by decide) (by decide)

theorem toBatchesGoNil {σ : Type} (n fuel : Nat) :
    toBatchesGo n fuel ([] : List σ) = [] := by
  cases fuel <;> rfl

theorem toBatchesGoFlat {σ : Type} (n : Nat) (hn : 0 < n) :
    ∀ (fuel : Nat) (l : List σ), l.length ≤ fuel →
      (toBatchesGo n fuel l).flatten = l := by
  intro fuel
  induction fuel with
  | zero =>
    intro l hl
    have hnil : l = [] := List.length_eq_zero.1 (by omega)
    subst hnil
    rfl
  | succ fuel ih =>
    intro l hl
    cases l with
    | nil => rfl
    | cons a t =>
      rw [show toBatchesGo n (fuel + 1) (a :: t) =
        (a :: t).take n :: toBatchesGo n fuel ((a :: t).drop n) from rfl]
      rw [List.flatten_cons]
      rw [ih ((a :: t).drop n) (by simp only [List.length_drop, List.length_cons] at hl ⊢; omega)]
      exact List.take_append_drop n (a :: t)

theorem toBatchesGoMem {σ : Type} (n : Nat) (hn : 0 < n) :
    ∀ (fuel : Nat) (l : List σ), l.length ≤ fuel →
      ∀ b ∈ toBatchesGo n fuel l, b ≠ [] ∧ b.length ≤ n := by
  intro fuel
  induction fuel with
  | zero =>
    intro l hl b hb
    have hnil : l = [] := List.length_eq_zero.1 (by omega)
    subst hnil
    simp [toBatchesGoNil] at hb
  | succ fuel ih =>
    intro l hl b hb
    cases l with
    | nil => simp [toBatchesGoNil] at hb
    | cons a t =>
      rw [show toBatchesGo n (fuel + 1) (a :: t) =
        (a :: t).take n :: toBatchesGo n fuel ((a :: t).drop n) from rfl] at hb
      rcases List.mem_cons.1 hb with hb | hb
      · subst hb
        constructor
        · cases n with
          | zero => omega
          | succ m => simp [List.take_succ_cons]
        · rw [List.length_take]
          exact min_le_left _ _
      · exact ih ((a :: t).drop n)
          (by simp only [List.length_drop, List.length_cons] at hl ⊢; omega) b hb

theorem toBatchesGoSizes {σ : Type} (n : Nat) (hn : 0 < n) :
    ∀ (fuel : Nat) (l : List σ), l.length ≤ fuel →
      ∀ b ∈ (toBatchesGo n fuel l).dropLast, b.length = n := by
  intro fuel
  induction fuel with
  | zero =>
    intro l hl b hb
    have hnil : l = [] := List.length_eq_zero.1 (by omega)
    subst hnil
    simp [toBatchesGoNil] at hb
  | succ fuel ih =>
    intro l hl b hb
    cases l with
    | nil => simp [toBatchesGoNil] at hb
    | cons a t =>
      rw [show toBatchesGo n (fuel + 1) (a :: t) =
        (a :: t).take n :: toBatchesGo n fuel ((a :: t).drop n) from rfl] at hb
      cases hrec : toBatchesGo n fuel ((a :: t).drop n) with
      | nil =>
        rw [hrec] at hb
        simp at hb
      | cons r rs =>
        rw [hrec, List.dropLast_cons₂] at hb
        rcases List.mem_cons.1 hb with hb | hb
        · subst hb
          have hdropne : (a :: t).drop n ≠ [] := by
            intro hnil
            rw [hnil, toBatchesGoNil] at hrec
            cases hrec
          have hlen : n < (a :: t).length := by
            by_contra hge
            push_neg at hge
            exact hdropne (List.drop_eq_nil_of_le hge)
          rw [List.length_take]
          omega
        · exact ih ((a :: t).drop n)
            (by simp only [List.length_drop, List.length_cons] at hl ⊢; omega) b
            (by rw [hrec]; exact hb)

theorem retryGoOk {β : Type} (g : Nat → Except String (List β)) (maxRetries : Nat)
    (w : List β) (hgood : ∀ a v, g a = .ok v → v = w) :
    ∀ (fuel r : Nat), fuel = maxRetries - r →
      (∃ a, r ≤ a ∧ a < maxRetries ∧ (g a).isOk) →
      retryGo g maxRetries fuel r = .ok w := by
  intro fuel
  induction fuel with
  | zero =>
    rintro r hfuel ⟨a, ha1, ha2, -⟩
    omega
  | succ fuel ih =>
    intro r hfuel hex
    cases hg : g r with
    | ok v =>
      have hv := hgood r v hg
      subst hv
      simp [retryGo, hg]
    | error e =>
      obtain ⟨a, ha1, ha2, ha3⟩ := hex
      have hane : a ≠ r := by
        intro heq
        subst heq
        rw [hg] at ha3
        simp [Except.isOk, Except.toBool] at ha3
      have har : r < maxRetries := by omega
      simp only [retryGo, hg]
      rw [if_neg (by omega)]
      exact ih (r + 1) (by omega) ⟨a, by omega, ha2, ha3⟩

theorem retryGoError {β : Type} (g : Nat → Except String (List β)) (maxRetries : Nat)
    (hall : ∀ a, a < maxRetries → (g a).isOk = false) :
    ∀ (fuel r : Nat), fuel = maxRetries - r → r < maxRetries →
      ∃ e, retryGo g maxRetries fuel r = .error e := by
  intro fuel
  induction fuel with
  | zero =>
    intro r h1 h2
    omega
  | succ fuel ih =>
    intro r h1 h2
    cases hg : g r with
    | ok v =>
      have hbad := hall r h2
      rw [hg] at hbad
      simp [Except.isOk, Except.toBool] at hbad
    | error e =>
      simp only [retryGo, hg]
      by_cases hle : maxRetries ≤ r + 1
      · rw [if_pos hle]
        exact ⟨e, rfl⟩
      · rw [if_neg hle]
        exact ih (r + 1) (by omega) (by omega)

theorem runBatchesOk {σ β : Type} (g : List σ → Nat → Except String (List β))
    (maxRetries : Nat) (f : List σ → List β)
    (hgood : ∀ b a v, g b a = .ok v → v = f b) :
    ∀ (bs : List (List σ)), (∀ b ∈ bs, ∃ a, a < maxRetries ∧ (g b a).isOk) →
      runBatches g maxRetries bs = .ok (bs.map f).flatten := by
  intro bs
  induction bs with
  | nil =>
    intro _
    rfl
  | cons b bs ih =>
    intro hex
    have h1 : retryGo (g b) maxRetries maxRetries 0 = .ok (f b) := by
      refine retryGoOk (g b) maxRetries (f b) (fun a v hv => hgood b a v hv)
        maxRetries 0 (by omega) ?_
      obtain ⟨a, ha1, ha2⟩ := hex b (List.mem_cons_self b bs)
      exact ⟨a, by omega, ha1, ha2⟩
    have h2 := ih (fun x hx => hex x (List.mem_cons_of_mem b hx))
    rw [show runBatches g maxRetries (b :: bs) =
      (match retryGo (g b) maxRetries maxRetries 0 with
        | .error e => .error e
        | .ok v =>
          match runBatches g maxRetries bs with
          | .error e => .error e
          | .ok rest => .ok (v ++ rest)) from rfl]
    rw [h1, h2]
    simp

theorem runBatchesError {σ β : Type} (g : List σ → Nat → Except String (List β))
    (maxRetries : Nat) (h0 : 0 < maxRetries) :
    ∀ (bs : List (List σ)),
      (∃ b ∈ bs, ∀ a, a < maxRetries → (g b a).isOk = false) →
      ∃ e, runBatches g maxRetries bs = .error e := by
  intro bs
  induction bs with
  | nil =>
    rintro ⟨b, hb, -⟩
    simp at hb
  | cons b bs ih =>
    rintro ⟨c, hc, hcall⟩
    rw [show runBatches g maxRetries (b :: bs) =
      (match retryGo (g b) maxRetries maxRetries 0 with
        | .error e => .error e
        | .ok v =>
          match runBatches g maxRetries bs with
          | .error e => .error e
          | .ok rest => .ok (v ++ rest)) from rfl]
    cases hr : retryGo (g b) maxRetries maxRetries 0 with
    | error e => exact ⟨e, rfl⟩
    | ok v =>
      rcases List.mem_cons.1 hc with hcb | hcbs
      · subst hcb
        obtain ⟨e, he⟩ := retryGoError (g c) maxRetries hcall maxRetries 0 (by omega) h0
        rw [he] at hr
        cases hr
      · obtain ⟨e, he⟩ := ih ⟨c, hcbs, hcall⟩
        rw [he]
        exact ⟨e, rfl⟩

theorem generateEmbeddingsOkOf {σ α : Type} (dim : Nat)
    (provider : List σ → Except String (List (List α))) (femb : σ → List α)
    (hdim : ∀ x, (femb x).length = dim) (b : List σ) (v : List (List α))
    (hv : provider b = .ok v) (hmap : v = b.map femb) :
    generateEmbeddings dim provider b = .ok (b.map femb) := by
  unfold generateEmbeddings
  by_cases hb : b.length = 0
  · rw [if_pos hb]
    have hnil : b = [] := List.length_eq_zero.1 hb
    subst hnil
    simp
  · rw [if_neg hb, hv]
    subst hmap
    show (Except.ok ((b.map femb).filter (fun e => e.length = dim)) :
      Except String (List (List α))) = .ok (b.map femb)
    congr 1
    refine List.filter_eq_self.2 ?_
    intro a ha
    rw [List.mem_map] at ha
    obtain ⟨x, -, hx⟩ := ha
    subst hx
    simp [hdim]

theorem generateEmbeddingsIsOk {σ α : Type} (dim : Nat)
    (provider : List σ → Except String (List (List α))) (b : List σ) (hb : b ≠ []) :
    (generateEmbeddings dim provider b).isOk = (provider b).isOk := by
  unfold generateEmbeddings
  rw [if_neg (fun h => hb (List.length_eq_zero.1 h))]
  cases provider b <;> simp [Except.isOk, Except.toBool]

/-- C3 (confirmed): `generateEmbeddingsBatch` partitions the input into
consecutive groups of `batchSize` (each group non-empty and of size at most
`batchSize`; every group but the last of size exactly `batchSize`) processed
in order; when the provider returns one `dim`-length vector per text on every
successful attempt and every group has a successful attempt before the retry
ceiling, the call returns one vector per input text in the original order;
when some group fails on every attempt below the ceiling, the whole call
propagates an error and no partial result is returned. -/
theorem C3_embedBatch {σ α : Type} (dim : Nat)
    (provider : Nat → List σ → Except String (List (List α)))
    (femb : σ → List α) (texts : List σ) (batchSize maxRetries : Nat)
    (hb : 0 < batchSize) :
    (toBatches batchSize texts).flatten = texts ∧
    (∀ b ∈ toBatches batchSize texts, b ≠ [] ∧ b.length ≤ batchSize) ∧
    (∀ b ∈ (toBatches batchSize texts).dropLast, b.length = batchSize) ∧
    ((∀ x, (femb x).length = dim) →
      (∀ a b v, provider a b = .ok v → v = b.map femb) →
      (∀ b ∈ toBatches batchSize texts, ∃ a, a < maxRetries ∧ (provider a b).isOk) →
      generateEmbeddingsBatch dim provider texts batchSize maxRetries =
        .ok (texts.map femb)) ∧
    (0 < maxRetries →
      (∃ b ∈ toBatches batchSize texts,
        ∀ a, a < maxRetries → (provider a b).isOk = false) →
      ∃ e, generateEmbeddingsBatch dim provider texts batchSize maxRetries =
        .error e) := by
  have hflat : (toBatches batchSize texts).flatten = texts :=
    toBatchesGoFlat batchSize hb texts.length texts le_rfl
  have hmem : ∀ b ∈ toBatches batchSize texts, b ≠ [] ∧ b.length ≤ batchSize :=
    toBatchesGoMem batchSize hb texts.length texts le_rfl
  have hsizes : ∀ b ∈ (toBatches batchSize texts).dropLast, b.length = batchSize :=
    toBatchesGoSizes batchSize hb texts.length texts le_rfl
  refine ⟨hflat, hmem, hsizes, ?_, ?_⟩
  · intro hdim hok hex
    unfold generateEmbeddingsBatch
    have hgood : ∀ (b : List σ) (a : Nat) (v : List (List α)),
        generateEmbeddings dim (provider a) b = .ok v → v = b.map femb := by
      intro b a v hv
      by_cases hbe : b = []
      · subst hbe
        unfold generateEmbeddings at hv
        simp only [List.length_nil, if_pos] at hv
        cases hv
        rfl
      · cases hp : provider a b with
        | error e =>
          unfold generateEmbeddings at hv
          rw [if_neg (fun h => hbe (List.length_eq_zero.1 h)), hp] at hv
          cases hv
        | ok resp =>
          have hresp : resp = b.map femb := hok a b resp hp
          rw [generateEmbeddingsOkOf dim (provider a) femb hdim b resp hp hresp] at hv
          cases hv
          rfl
    have hex2 : ∀ b ∈ toBatches batchSize texts, ∃ a, a < maxRetries ∧
        (generateEmbeddings dim (provider a) b).isOk := by
      intro b hbmem
      obtain ⟨a, ha1, ha2⟩ := hex b hbmem
      refine ⟨a, ha1, ?_⟩
      rw [generateEmbeddingsIsOk dim (provider a) b (hmem b hbmem).1]
      exact ha2
    rw [runBatchesOk (fun batch attempt => generateEmbeddings dim (provider attempt) batch)
      maxRetries (fun b => b.map femb) (fun b a v hv => hgood b a v hv)
      (toBatches batchSize texts) hex2]
    rw [← List.map_flatten, hflat]
  · intro hmr hex
    unfold generateEmbeddingsBatch
    obtain ⟨b, hbmem, hball⟩ := hex
    refine runBatchesError _ maxRetries hmr (toBatches batchSize texts) ⟨b, hbmem, ?_⟩
    intro a ha
    rw [generateEmbeddingsIsOk dim (provider a) b (hmem b hbmem).1]
    exact hball a ha

/-- C3 witness: 25 texts with `batchSize = 10` give batches of sizes
`[10, 10, 5]`; the second batch fails on its first two attempts and succeeds
on the third (within `maxRetries = 3`), and the call still returns 25
vectors in the original order. -/
theorem C3_embedBatch_witness :
    (toBatches 10 (List.range 25)).map List.length = [10, 10, 5] ∧
    generateEmbeddingsBatch 1 cEx3Provider (List.range 25) 10 3 =
      .ok ((List.range 25).map (fun x => [x])) := by
  refine ⟨by decide, ?_⟩
  refine (C3_embedBatch 1 cEx3Provider (fun x => [x]) (List.range 25) 10 3
    (by decide)).2.2.2.1 (fun x => rfl) ?_ (by decide)
  intro a b v hv
  unfold cEx3Provider at hv
  by_cases hcond : b.headD 0 = 10 ∧ a < 2
  · rw [if_pos hcond] at hv
    cases hv
  · rw [if_neg hcond] at hv
    cases hv
    rfl

/-! ## C1, C2: clear and stats -/

/-- C1 (code bug): `clearCollection` never issues a delete (its body only
logs), so `clearData("all")` reports success while the store is unchanged:
the document count stays `1`, `stats()` returns `{documents 1, memory 0,
total 1}` instead of all zeros, and the previously stored id is still
present (hence still queryable). -/
theorem C1_clear_noop :
    (clearData cEx1State ClearScope.all).2.success = true ∧
    (clearData cEx1State ClearScope.all).1 = cEx1State ∧
    statsOfState (clearData cEx1State ClearScope.all).1 =
      { documents := 1, memory := 0, total := 1 } ∧
    statsOfState (clearData cEx1State ClearScope.all).1 ≠
      { documents := 0, memory := 0, total := 0 } ∧
    "chunk-1" ∈ (clearData cEx1State ClearScope.all).1.files.map UpsertRecord.id := by
  decide

/-- C2 (amended): each collection's count falls back to `0` independently
when its own stats call fails, the other collection's real count is kept
(so a partial result is possible, refuting the all-zeros collapse), the
total is always the sum of the two reported counts, and the operation never
throws (it is a total function of the two call outcomes). -/
theorem C2_stats_independent (docStatsCall memStatsCall : Except String (Option Nat)) :
    ((∃ e, docStatsCall = .error e) →
      (getCollectionStats docStatsCall memStatsCall).documents = 0) ∧
    ((∃ e, memStatsCall = .error e) →
      (getCollectionStats docStatsCall memStatsCall).memory = 0) ∧
    (∀ n, docStatsCall = .ok (some n) →
      (getCollectionStats docStatsCall memStatsCall).documents = n) ∧
    (∀ n, memStatsCall = .ok (some n) →
      (getCollectionStats docStatsCall memStatsCall).memory = n) ∧
    (getCollectionStats docStatsCall memStatsCall).total =
      (getCollectionStats docStatsCall memStatsCall).documents +
        (getCollectionStats docStatsCall memStatsCall).memory := by
  refine ⟨?_, ?_, ?_, ?_, rfl⟩
  · rintro ⟨e, he⟩
    subst he
    rfl
  · rintro ⟨e, he⟩
    subst he
    rfl
  · intro n hn
    subst hn
    rfl
  · intro n hn
    subst hn
    rfl

/-- C2 counterexample: if the files count fails while the memory count
succeeds with `5`, the stats are `{documents 0, memory 5, total 5}` — a
partial result, not the all-zeros record the claim requires. -/
theorem C2_counterexample :
    getCollectionStats (.error "files index unreachable") (.ok (some 5)) =
      { documents := 0, memory := 5, total := 5 } ∧
    getCollectionStats (.error "files index unreachable") (.ok (some 5)) ≠
      { documents := 0, memory := 0, total := 0 } := by
  decide

/-- C2 witness: the amended statement evaluated at a failing files count and
a memory count of `5`. -/
theorem C2_stats_independent_witness :
    (getCollectionStats (.error "down") (.ok (some 5))).documents = 0 ∧
    (getCollectionStats (.error "down") (.ok (some 5))).memory = 5 :=
  ⟨(C2_stats_independent (.error "down") (.ok (some 5))).1 ⟨"down", rfl⟩,
   (C2_stats_independent (.error "down") (.ok (some 5))).2.2.2.1 5 rfl⟩

/-! ## C6: search threshold and limit -/

theorem filterMatchesScore (θ : ℚ) (ms : List QueryMatch) :
    ∀ r ∈ filterMatches θ ms, θ ≤ r.score := by
  intro r hr
  unfold filterMatches at hr
  rw [List.mem_filterMap] at hr
  obtain ⟨m, -, hm⟩ := hr
  cases hmd : m.metadata with
  | none => simp [hmd] at hm
  | some md =>
    simp only [hmd] at hm
    by_cases hsc : θ ≤ m.score.getD 0
    · rw [if_pos hsc] at hm
      rw [Option.some.injEq] at hm
      subst hm
      exact hsc
    · rw [if_neg hsc] at hm
      simp at hm

theorem jsOrRatStable (d : ℚ) (hd : d ≠ 0) (x : Option ℚ) :
    jsOrRat d (some (jsOrRat d x)) = jsOrRat d x := by
  cases x with
  | none => simp [jsOrRat, hd]
  | some q =>
    by_cases hq : q = 0
    · simp [jsOrRat, hq, hd]
    · simp [jsOrRat, hq]

theorem jsOrNatStable (d : Nat) (hd : d ≠ 0) (x : Option Nat) :
    jsOrNat d (some (jsOrNat d x)) = jsOrNat d x := by
  cases x with
  | none => simp [jsOrNat, hd]
  | some n =>
    by_cases hn : n = 0
    · simp [jsOrNat, hn, hd]
    · simp [jsOrNat, hn]

/-- C6 (amended): every result returned by the files/memory search handlers
has score at least the requested threshold (a requested `0` is replaced by
the stricter default `0.7`); the number of results never exceeds the
requested limit provided the requested limit is nonzero — a requested limit
of `0` is falsy in JS and is replaced by the default `10`, so up to 10
results may then be returned (see `C6_counterexample`).  The store is
assumed to honour `topK`. -/
theorem C6_search_bounds (filesIndex memIndex : Nat → List QueryMatch)
    (hfiles : ∀ k, (filesIndex k).length ≤ k)
    (hmem : ∀ k, (memIndex k).length ≤ k)
    (limitArg : Option Nat) (thresholdArg : Option ℚ) :
    (∀ r ∈ handleSearchFiles filesIndex limitArg thresholdArg,
      ∀ t, thresholdArg = some t → t ≤ r.score) ∧
    (∀ n, limitArg = some n → n ≠ 0 →
      (handleSearchFiles filesIndex limitArg thresholdArg).length ≤ n) ∧
    (∀ r ∈ handleSearchMemory memIndex limitArg thresholdArg,
      ∀ t, thresholdArg = some t → t ≤ r.score) ∧
    (∀ n, limitArg = some n → n ≠ 0 →
      (handleSearchMemory memIndex limitArg thresholdArg).length ≤ n) := by
  have htr : ∀ t, thresholdArg = some t →
      t ≤ jsOrRat (7/10) (some (jsOrRat (7/10) thresholdArg)) := by
    intro t ht
    subst ht
    rw [jsOrRatStable (7/10) (by norm_num) (some t)]
    by_cases h0 : t = 0
    · subst h0
      simp [jsOrRat]
      norm_num
    · simp [jsOrRat, h0]
  have hlim : ∀ n, limitArg = some n → n ≠ 0 →
      jsOrNat 10 (some (jsOrNat 10 limitArg)) = n := by
    intro n hn h0
    subst hn
    rw [jsOrNatStable 10 (by norm_num) (some n)]
    simp [jsOrNat, h0]
  refine ⟨?_, ?_, ?_, ?_⟩
  · intro r hr t ht
    exact le_trans (htr t ht)
      (filterMatchesScore _ _ r hr)
  · intro n hn h0
    unfold handleSearchFiles searchDocuments
    dsimp only
    rw [hlim n hn h0]
    exact le_trans (List.length_filterMap_le _ _) (hfiles n)
  · intro r hr t ht
    exact le_trans (htr t ht)
      (filterMatchesScore _ _ r hr)
  · intro n hn h0
    unfold handleSearchMemory searchMemory
    dsimp only
    rw [hlim n hn h0]
    exact le_trans (List.length_filterMap_le _ _) (hmem n)

/-- C6 counterexample: with a store that honours `topK`, a requested limit
of `0` is replaced by the default `10`, and the handler returns 1 result —
more than the requested limit `0`. -/
theorem C6_counterexample :
    (∀ k, (cEx6Index k).length ≤ k) ∧
    (handleSearchFiles cEx6Index (some 0) none).length = 1 ∧
    ¬ (handleSearchFiles cEx6Index (some 0) none).length ≤ 0 := by
  have hres : handleSearchFiles cEx6Index (some 0) none =
      [{ id := "m1", content := "x", metadata := { content := some "x" },
         score := 1 }] := by
    unfold handleSearchFiles searchDocuments filterMatches cEx6Index jsOrNat jsOrRat
    norm_num [List.filterMap_cons]
  refine ⟨?_, by rw [hres]; rfl, by rw [hres]; decide⟩
  intro k
  unfold cEx6Index
  by_cases h : k = 10
  · subst h
    decide
  · rw [if_neg h]
    simp

/-- C6 witness: the amended bounds evaluated at a requested limit `5` and a
requested threshold `1/2`. -/
theorem C6_search_bounds_witness :
    (handleSearchFiles cEx6Index (some 5) (some (1/2))).length ≤ 5 :=
  (C6_search_bounds cEx6Index cEx6Index
    (fun k => by
      unfold cEx6Index
      by_cases h : k = 10
      · subst h; decide
      · rw [if_neg h]; simp)
    (fun k => by
      unfold cEx6Index
      by_cases h : k = 10
      · subst h; decide
      · rw [if_neg h]; simp)
    (some 5) (some (1/2))).2.1 5 rfl (by decide)

/-! ## C7: cosine similarity -/

theorem sumSqNonneg (l : List ℝ) : 0 ≤ (l.map (fun x => x * x)).sum := by
  induction l with
  | nil => simp
  | cons a t ih =>
    simp only [List.map_cons, List.sum_cons]
    have := mul_self_nonneg a
    linarith

theorem zipSelfSum (l : List ℝ) :
    ((l.zip l).map (fun p => p.1 * p.2)).sum = (l.map (fun x => x * x)).sum := by
  induction l with
  | nil => simp
  | cons a t ih =>
    simp only [List.zip_cons_cons, List.map_cons, List.sum_cons, ih]

/-- C7 (confirmed): `calculateCosineSimilarity` fails exactly on mismatched
lengths (with the dimension-mismatch message); for matched lengths it is
total, returning `0` whenever either vector has zero magnitude (sum of
squares zero), and it returns exactly `1` on `(v, v)` for any vector with a
non-zero component. -/
theorem C7_cosine (a b : List ℝ) :
    ((calculateCosineSimilarity a b).isOk = false ↔ a.length ≠ b.length) ∧
    (a.length ≠ b.length →
      calculateCosineSimilarity a b = .error "Embeddings must have the same dimension") ∧
    (a.length = b.length →
      ((a.map (fun x => x * x)).sum = 0 ∨ (b.map (fun x => x * x)).sum = 0) →
      calculateCosineSimilarity a b = .ok 0) ∧
    ((∃ x ∈ a, x ≠ 0) → calculateCosineSimilarity a a = .ok 1) := by
  have herr : a.length ≠ b.length →
      calculateCosineSimilarity a b = .error "Embeddings must have the same dimension" := by
    intro h
    unfold calculateCosineSimilarity
    rw [if_pos h]
  have hzero : a.length = b.length →
      ((a.map (fun x => x * x)).sum = 0 ∨ (b.map (fun x => x * x)).sum = 0) →
      calculateCosineSimilarity a b = .ok 0 := by
    intro hl h0
    unfold calculateCosineSimilarity
    rw [if_neg (by omega)]
    dsimp only
    rw [if_pos ?hz]
    case hz =>
      rcases h0 with h0 | h0
      · left
        rw [h0, Real.sqrt_zero]
      · right
        rw [h0, Real.sqrt_zero]
  have hself : (∃ x ∈ a, x ≠ 0) → calculateCosineSimilarity a a = .ok 1 := by
    rintro ⟨x, hx, hx0⟩
    have hpos : 0 < (a.map (fun y => y * y)).sum := by
      have h1 : x * x ≤ (a.map (fun y => y * y)).sum := by
        refine List.single_le_sum ?_ (x * x) ?_
        · intro y hy
          rw [List.mem_map] at hy
          obtain ⟨z, -, hz⟩ := hy
          rw [← hz]
          exact mul_self_nonneg z
        · exact List.mem_map.2 ⟨x, hx, rfl⟩
      have h2 : 0 < x * x := mul_self_pos.2 hx0
      linarith
    have hsq : Real.sqrt ((a.map (fun y => y * y)).sum) ≠ 0 := by
      rw [← Real.sqrt_pos] at hpos
      exact ne_of_gt hpos
    unfold calculateCosineSimilarity
    rw [if_neg (by omega)]
    dsimp only
    rw [if_neg (by
      rintro (h | h)
      · exact hsq h
      · exact hsq h)]
    rw [zipSelfSum a]
    congr 1
    rw [Real.mul_self_sqrt (sumSqNonneg a)]
    exact div_self (ne_of_gt hpos)
  refine ⟨?_, herr, hzero, hself⟩
  constructor
  · intro hok
    intro heq
    unfold calculateCosineSimilarity at hok
    rw [if_neg (by omega)] at hok
    dsimp only at hok
    by_cases hz : Real.sqrt ((a.map (fun x => x * x)).sum) = 0 ∨
        Real.sqrt ((b.map (fun x => x * x)).sum) = 0
    · rw [if_pos hz] at hok
      simp [Except.isOk, Except.toBool] at hok
    · rw [if_neg hz] at hok
      simp [Except.isOk, Except.toBool] at hok
  · intro hne
    rw [herr hne]
    rfl

/-- C7 witness: the similarity of `[3]` with itself is exactly `1`, the zero
vector gives `0`, and mismatched lengths give the dimension error. -/
theorem C7_cosine_witness :
    calculateCosineSimilarity [(3 : ℝ)] [(3 : ℝ)] = .ok 1 ∧
    calculateCosineSimilarity [(0 : ℝ)] [(0 : ℝ)] = .ok 0 ∧
    calculateCosineSimilarity [(1 : ℝ), 0] [(1 : ℝ)] =
      .error "Embeddings must have the same dimension" :=
  ⟨(C7_cosine [3] [3]).2.2.2 ⟨3, by simp, by norm_num⟩,
   (C7_cosine [0] [0]).2.2.1 rfl (by simp),
   (C7_cosine [1, 0] [1]).2.1 (by simp)⟩

/-! ## C9, C10: positional upsert alignment and empty embeddings -/

theorem buildVectorsFromGet (embeddings : List (List ℚ)) :
    ∀ (chunks : List DocChunk) (i j : Nat),
      (buildVectorsFrom embeddings i chunks)[j]? =
        (chunks[j]?).map (fun c =>
          { id := c.id, values := embeddings[i + j]?, content := c.content }) := by
  intro chunks
  induction chunks with
  | nil =>
    intro i j
    simp [buildVectorsFrom]
  | cons c cs ih =>
    intro i j
    cases j with
    | zero => simp [buildVectorsFrom]
    | succ j =>
      have hstep : buildVectorsFrom embeddings i (c :: cs) =
          { id := c.id, values := embeddings[i]?, content := c.content } ::
            buildVectorsFrom embeddings (i + 1) cs := rfl
      rw [hstep, List.getElem?_cons_succ, ih (i + 1) j, List.getElem?_cons_succ]
      have harith : i + 1 + j = i + (j + 1) := by omega
      rw [harith]

theorem buildVectorsFromLen (embeddings : List (List ℚ)) :
    ∀ (chunks : List DocChunk) (i : Nat),
      (buildVectorsFrom embeddings i chunks).length = chunks.length := by
  intro chunks
  induction chunks with
  | nil => intro i; rfl
  | cons c cs ih =>
    intro i
    simp only [buildVectorsFrom, List.length_cons]
    rw [ih (i + 1)]

/-- C9 (confirmed): `addDocuments` with a successful embedding batch builds
exactly one upsert record per chunk, pairing chunk `i` with `embeddings[i]`
purely by position; when the batch returned fewer vectors than there are
chunks, the trailing records carry `values = none` (JS `undefined`), and the
whole record list — misalignment included — is upserted successfully rather
than rejected. -/
theorem C9_addDocuments (s : VDBState) (chunks : List DocChunk)
    (embeddings : List (List ℚ)) (hne : chunks ≠ []) :
    addDocuments s chunks (.ok embeddings) =
      .ok { s with files := s.files ++ buildVectors chunks embeddings } ∧
    (buildVectors chunks embeddings).length = chunks.length ∧
    (∀ (i : Nat) (c : DocChunk), chunks[i]? = some c →
      (buildVectors chunks embeddings)[i]? =
        some { id := c.id, values := embeddings[i]?, content := c.content }) ∧
    (∀ (i : Nat) (c : DocChunk), chunks[i]? = some c → embeddings.length ≤ i →
      ((buildVectors chunks embeddings)[i]?).map UpsertRecord.values = some none) := by
  refine ⟨?_, buildVectorsFromLen embeddings chunks 0, ?_, ?_⟩
  · unfold addDocuments
    rw [if_neg (fun h => hne (List.length_eq_zero.1 h))]
  · intro i c hc
    unfold buildVectors
    rw [buildVectorsFromGet embeddings chunks 0 i, hc]
    rw [show 0 + i = i from by omega]
    rfl
  · intro i c hc hlen
    unfold buildVectors
    rw [buildVectorsFromGet embeddings chunks 0 i, hc]
    rw [show 0 + i = i from by omega]
    have hnone : embeddings[i]? = none := by
      rw [List.getElem?_eq_none_iff]
      omega
    simp [hnone]

/-- C9 witness: two chunks with a single returned embedding — the first
record carries the vector, the second carries `none`, and both are upserted
with success. -/
theorem C9_addDocuments_witness :
    addDocuments { files := [], memory := [] } cEx9Chunks (.ok [[(1 : ℚ)]]) =
      .ok { files := ([] : List UpsertRecord) ++ buildVectors cEx9Chunks [[(1 : ℚ)]],
            memory := [] } ∧
    ((buildVectors cEx9Chunks [[(1 : ℚ)]])[1]?).map UpsertRecord.values = some none :=
  ⟨(C9_addDocuments { files := [], memory := [] } cEx9Chunks [[(1 : ℚ)]]
      (by decide)).1,
   (C9_addDocuments { files := [], memory := [] } cEx9Chunks [[(1 : ℚ)]]
      (by decide)).2.2.2 1 ({ id := "b", content := ['y'] } : DocChunk)
      (by decide) (by decide)⟩

/-- C10 (confirmed): when the provider call for a single text succeeds but
yields no vector of the configured dimension, `generateSingleEmbedding`
returns the empty vector `[]` (`embeddings[0] || []`) rather than throwing
or returning an absent value, and `testConnection` then reports `false`
(length `0` differs from a nonzero configured dimension) rather than an
error. -/
theorem C10_empty_embedding (dim : Nat)
    (provider : List String → Except String (List (List ℚ)))
    (text : String) (resp : List (List ℚ))
    (hresp : provider [text] = .ok resp)
    (hinvalid : resp.filter (fun e => e.length = dim) = []) :
    generateSingleEmbedding dim provider text = .ok [] ∧
    (dim ≠ 0 → testConnection dim provider text = false) := by
  have hgen : generateEmbeddings dim provider [text] = .ok [] := by
    unfold generateEmbeddings
    rw [if_neg (by simp), hresp]
    show (Except.ok (resp.filter (fun e => e.length = dim)) :
      Except String (List (List ℚ))) = .ok []
    rw [hinvalid]
  have hsingle : generateSingleEmbedding dim provider text = .ok [] := by
    unfold generateSingleEmbedding
    rw [hgen]
    rfl
  refine ⟨hsingle, ?_⟩
  intro hdim
  unfold testConnection
  rw [hsingle]
  simpa using fun h => hdim h.symm

/-- C10 witness: dimension `384`, a provider answering with one vector of
the wrong length (so zero valid vectors): the single embedding is `.ok []`
and `testConnection` is `false`. -/
theorem C10_empty_embedding_witness :
    generateSingleEmbedding 384 (fun _ => .ok [[(1 : ℚ)]]) "test" = .ok [] ∧
    testConnection 384 (fun _ => .ok [[(1 : ℚ)]]) "test" = false :=
  ⟨(C10_empty_embedding 384 (fun _ => .ok [[(1 : ℚ)]]) "test" [[(1 : ℚ)]]
      rfl (by decide)).1,
   (C10_empty_embedding 384 (fun _ => .ok [[(1 : ℚ)]]) "test" [[(1 : ℚ)]]
      rfl (by decide)).2 (by decide)⟩

end McpRag
